import Mathlib

/-!
# gossamr: phase resolution, the task runner and the grouped reader

A shallow embedding of `task.go` (phase resolution `GetPhase`, the dispatcher
`Task.Run` and its loop `Task.run`) and of the test source `TestReader` of
`io_test.go`, together with theorems about them.

Conventions of the embedding.

* Go's `error` is `Option Error`: `none` is `nil`, `Error.EOF` is the
  sentinel `io.EOF`, `Error.errorf msg` is an error built from a message.
* A Go `interface{}` result that may be `nil` is an `Option`.
* A Go interface value (`Reader`, `Writer`) is a state machine packed with
  its current state; calling a method returns the result together with the
  object in its next state.
* A call that does not return is `none`; loops take a `fuel` bound and give
  `none` when it is used up.
* `Task.run` and `Task.Run` return the error they report together with the
  trace of every call they made on the input, the handler and the output.
* A run that ends in a panic of `m.Call` is a result with `panicked` set; its
  trace holds the calls made before and during the unwinding.
-/

namespace Gossamr

/-! ## Values -/

/-- Go `error` values: the sentinel `io.EOF`, or an error carrying a message. -/
inductive Error where
  | EOF
  | errorf (msg : String)
  deriving DecidableEq, Repr

/-- The dynamic values that travel as the `v interface{}` of a pair: a decoded
base value, or a value sequence (a channel, represented by the values it
delivers, in order, until it is closed). -/
inductive Value (ν : Type) where
  | base (b : ν)
  | chan (vs : List (Value ν))

/-- The triple `(k, v interface{}, err error)` returned by `Reader.Next`:
`ok k v` is `(k, v, nil)`; `fail k v e` is `(k, v, e)` with `e` not nil, where
`k` and `v` may be nil. -/
inductive NextResult (κ ν : Type) where
  | ok (k : κ) (v : Value ν)
  | fail (k : Option κ) (v : Option (Value ν)) (e : Error)

/-! ## task.go: phases -/

/-- Go `type Phase uint8`. -/
abbrev Phase := Fin 256

/-- Go `MapPhase Phase = iota`. -/
def MapPhase : Phase := 0

/-- Second constant of the `iota` block. -/
def CombinePhase : Phase := 1

/-- Third constant of the `iota` block. -/
def ReducePhase : Phase := 2

/-- Go `func GetPhase(name string) (Phase, error)`: a `switch` on the string; the
`default` branch is taken when no `case` matches. -/
def GetPhase (name : String) : Phase × Option Error :=
  if name = "" then (0, some (Error.errorf "Missing phase"))
  else if name = "map" then (MapPhase, none)
  else if name = "combine" then (CombinePhase, none)
  else if name = "reduce" then (ReducePhase, none)
  else (0, some (Error.errorf ("Unknown phase " ++ name)))

/-! ## The Reader and Writer interfaces -/

/-- The `Reader` interface (`Next() (k, v interface{}, err error)`): an object
with a state; `step` is its `Next` method, `none` when the call does not
return. -/
structure Reader (κ ν : Type) where
  σ : Type
  state : σ
  step : σ → Option (NextResult κ ν × σ)

/-- One call of `Next()` on a reader object: the result and the object
afterwards. -/
def Reader.Next {κ ν : Type} (rd : Reader κ ν) : Option (NextResult κ ν × Reader κ ν) :=
  match rd.step rd.state with
  | none => none
  | some (r, s) => some (r, { rd with state := s })

/-- The output sink behind `NewPairWriter(w)`: `write` is the operation the
collector forwards an emitted pair to, `close` is `Close() error`. The
concrete writer is not part of `task.go`; it is a parameter. -/
structure Writer (κ ν : Type) where
  σ : Type
  state : σ
  write : σ → κ → Value ν → Option Error × σ
  close : σ → Option Error × σ

/-- One emission reaching the sink. -/
def Writer.Emit {κ ν : Type} (w : Writer κ ν) (k : κ) (v : Value ν) :
    Option Error × Writer κ ν :=
  ((w.write w.state k v).1, { w with state := (w.write w.state k v).2 })

/-- One call of `Close()` on the sink. -/
def Writer.Close {κ ν : Type} (w : Writer κ ν) : Option Error × Writer κ ν :=
  ((w.close w.state).1, { w with state := (w.close w.state).2 })

/-! ## io_test.go: the test source -/

/-- Go `type TestReader struct { i int; rows [][2]interface{} }`. -/
structure TestReader (κ ν : Type) where
  i : Nat
  rows : List (κ × Value ν)

/-- Go `func NewTestReader(rows [][2]interface{}) *TestReader`. -/
def NewTestReader {κ ν : Type} (rows : List (κ × Value ν)) : TestReader κ ν :=
  { i := 0, rows := rows }

/-- Go `func (tr *TestReader) Next()`: the guard `tr.i > len(tr.rows)-1` is
evaluated over the integers, as in Go (`len - 1` is `-1` for no rows). -/
def TestReader.Next {κ ν : Type} (tr : TestReader κ ν) : NextResult κ ν × TestReader κ ν :=
  if h : (tr.i : Int) > (tr.rows.length : Int) - 1 then
    (NextResult.fail none none Error.EOF, tr)
  else
    let row := tr.rows.get ⟨tr.i, by omega⟩
    (NextResult.ok row.1 row.2, { tr with i := tr.i + 1 })

/-- A `*TestReader` used as a `Reader`; its `Next` always returns. -/
def TestReader.toReader {κ ν : Type} (tr : TestReader κ ν) : Reader κ ν :=
  { σ := TestReader κ ν, state := tr, step := fun s => some s.Next }

/-! ## The grouped reader -/

/-- Modelled from the spec: the state of the grouped stream (`GroupedReader`,
whose source file is not among the sources). It wraps a pair source (here
the state `reader` of that source), owns the lookahead slot holding the first
pair of the next group, and remembers a fault the producer met. -/
structure GroupedReader (σ κ ν : Type) where
  reader : σ
  lookahead : Option (κ × Value ν)
  fault : Option Error

/-- Modelled from the spec: the producer task of one group (its source is not
among the sources), after the seed value was pushed. It repeatedly reads the
next pair: an equal key pushes the value and continues; a different key is
stored in the lookahead slot and the sequence is closed; an exhausted source
closes the sequence with no lookahead; a fault closes the sequence and is
recorded. The result is the values pushed, in order, and the state the
producer leaves. `fuel` bounds the number of reads; `none` is a producer that
does not finish. The consumer is assumed to drain the sequence fully (the
caller obligation of the spec), so every push is received. -/
def GroupedReader.produce {σ κ ν : Type} [DecidableEq κ]
    (step : σ → Option (NextResult κ ν × σ)) (key : κ) :
    Nat → σ → Option (List (Value ν) × GroupedReader σ κ ν)
  | 0, _ => none
  | fuel + 1, s =>
    match step s with
    | none => none
    | some (NextResult.fail _ _ e, s') =>
      if e = Error.EOF then some ([], { reader := s', lookahead := none, fault := none })
      else some ([], { reader := s', lookahead := none, fault := some e })
    | some (NextResult.ok k v, s') =>
      if k = key then
        match GroupedReader.produce step key fuel s' with
        | none => none
        | some (vs, g) => some (v :: vs, g)
      else some ([], { reader := s', lookahead := some (k, v), fault := none })

/-- Modelled from the spec: `GroupedReader.Next()` followed by the full drain
of the returned sequence (the source of `GroupedReader` is not among the
sources). A recorded fault is surfaced by this call. Otherwise the seed pair
is the lookahead, or, with no lookahead, one pair read from the source; an
exhausted source gives the terminal condition with no key and no sequence.
The seed's key is the group's key and the seed's value its first value. -/
def GroupedReader.Next {σ κ ν : Type} [DecidableEq κ]
    (step : σ → Option (NextResult κ ν × σ)) (fuel : Nat) (gr : GroupedReader σ κ ν) :
    Option (NextResult κ ν × GroupedReader σ κ ν) :=
  match gr.fault with
  | some e => some (NextResult.fail none none e, { gr with fault := none })
  | none =>
    match gr.lookahead with
    | some (k, v) =>
      match GroupedReader.produce step k fuel gr.reader with
      | none => none
      | some (vs, g) => some (NextResult.ok k (Value.chan (v :: vs)), g)
    | none =>
      match step gr.reader with
      | none => none
      | some (NextResult.fail _ _ e, s') =>
        some (NextResult.fail none none e, { gr with reader := s' })
      | some (NextResult.ok k v, s') =>
        match GroupedReader.produce step k fuel s' with
        | none => none
        | some (vs, g) => some (NextResult.ok k (Value.chan (v :: vs)), g)

/-- Modelled from the spec: `NewGroupedReader(reader)` (its source is not
among the sources) wraps the pair source with an empty lookahead slot and
reads nothing. `fuel` is the bound given to each group's producer. -/
def NewGroupedReader {κ ν : Type} [DecidableEq κ] (fuel : Nat) (reader : Reader κ ν) :
    Reader κ ν :=
  { σ := GroupedReader reader.σ κ ν
    state := { reader := reader.state, lookahead := none, fault := none }
    step := GroupedReader.Next reader.step fuel }

/-! ## task.go: the task runner -/

/-- What a handler method does during one invocation that returns, as seen by
the runner: it returns (leaving the handler in state `h`), or it calls
`Collect(k, v)` on the collector and continues according to the error that
call returned. -/
inductive Action (η κ ν : Type) where
  | done (h : η)
  | collect (k : κ) (v : Value ν) (cont : Option Error → Action η κ ν)

/-- A method found by reflection, bound to its receiver (a `reflect.Value` of
kind `Func`). `accepts k v` is the check `Call` makes on its arguments before
the method runs: each is a non-zero `reflect.Value` (not the nil interface)
assignable to the parameter it is passed for, and the method takes three
arguments; where it fails `Call` panics. `body` is the method itself, called
with the receiver's state, a key and a value (and the collector, which
`Action` accounts for). -/
structure Method (η κ ν : Type) where
  accepts : κ → Value ν → Bool
  body : η → κ → Value ν → Action η κ ν

/-- Go `type Task struct { instance interface{}; value reflect.Value }`: `inst`
is the handler object; `value` is its reflected value, represented by the
method set it answers `MethodByName` with (`none`: the zero `reflect.Value`). -/
structure Task (η κ ν : Type) where
  inst : η
  value : String → Option (Method η κ ν)

/-- The calls the runner makes, with what they returned. -/
inductive Event (κ ν : Type) where
  | Next (r : NextResult κ ν)
  | Call (k : κ) (v : Value ν)
  | Emit (k : κ) (v : Value ν) (ret : Option Error)
  | Close (ret : Option Error)

/-- The outcome of a run: the value of `err` at its end, the trace of its
calls, in order, and whether the run ended in a panic of `m.Call` instead of
returning `err`. -/
structure RunResult (κ ν : Type) where
  err : Option Error
  trace : List (Event κ ν)
  panicked : Bool := false

/-- Go `func (t *Task) methodByName(name string) (v reflect.Value, ok bool)`:
`some m` is `(m, true)`, `none` is `(zero Value, false)`. -/
def Task.methodByName {η κ ν : Type} (t : Task η κ ν) (name : String) :
    Option (Method η κ ν) :=
  t.value name

/-- Go `func (t *Task) mapper() (reflect.Value, bool)`. -/
def Task.mapper {η κ ν : Type} (t : Task η κ ν) : Option (Method η κ ν) :=
  t.methodByName "Map"

/-- Go `func (t *Task) combiner() (reflect.Value, bool)`. -/
def Task.combiner {η κ ν : Type} (t : Task η κ ν) : Option (Method η κ ν) :=
  t.methodByName "Combine"

/-- Go `func (t *Task) reducer() (reflect.Value, bool)`. -/
def Task.reducer {η κ ν : Type} (t : Task η κ ν) : Option (Method η κ ν) :=
  t.methodByName "Reduce"

/-- The collector of `NewWriterCollector(output)` serving one invocation: each
`Collect` is forwarded to the sink at once and its error handed back to the
method. Gives the handler state, the sink and the emissions made. -/
def Action.exec {η κ ν : Type} :
    Action η κ ν → Writer κ ν → η × Writer κ ν × List (Event κ ν)
  | Action.done h, w => (h, w, [])
  | Action.collect k v cont, w =>
    let r := Action.exec (cont (w.Emit k v).1) (w.Emit k v).2
    (r.1, r.2.1, Event.Emit k v (w.Emit k v).1 :: r.2.2)

/-- The `for` loop of `Task.run`: the value of `err` when the loop is left,
whether it is left by a panic of `m.Call`, the sink as the loop leaves it, and
the calls made. After a successful `Next()`, `m.Call` first checks its
arguments: when it accepts them the method runs, otherwise it panics with
nothing invoked (`err` is the nil that `Next()` returned). -/
def Task.loop {η κ ν : Type} (m : Method η κ ν) :
    Nat → η → Reader κ ν → Writer κ ν →
      Option (Option Error × Bool × Writer κ ν × List (Event κ ν))
  | 0, _, _, _ => none
  | fuel + 1, h, input, output =>
    match input.Next with
    | none => none
    | some (NextResult.fail k v e, _) =>
      if e = Error.EOF then some (none, false, output, [Event.Next (NextResult.fail k v e)])
      else some (some e, false, output, [Event.Next (NextResult.fail k v e)])
    | some (NextResult.ok k v, input') =>
      if m.accepts k v = true then
        let r := (m.body h k v).exec output
        match Task.loop m fuel r.1 input' r.2.1 with
        | none => none
        | some (err, p, out, tr) =>
          some (err, p, out,
            Event.Next (NextResult.ok k v) :: Event.Call k v :: (r.2.2 ++ tr))
      else some (none, true, output, [Event.Next (NextResult.ok k v)])

/-- Go `func (t *Task) run(m reflect.Value, input Reader, output Writer) (err error)`:
the loop, then the deferred function, which closes the output and sets `err`
to the close error only when `err` is nil. The deferred function runs when
the loop returns and also when `m.Call` panics; in the latter case the panic
goes on after it. -/
def Task.run {η κ ν : Type} (t : Task η κ ν) (m : Method η κ ν) (input : Reader κ ν)
    (output : Writer κ ν) (fuel : Nat) : Option (RunResult κ ν) :=
  match Task.loop m fuel t.inst input output with
  | none => none
  | some (err, p, out, tr) =>
    let e := out.Close.1
    some { err := if e ≠ none ∧ err = none then e else err
           trace := tr ++ [Event.Close e]
           panicked := p }

/-- Go `func (t *Task) Run(phase Phase, r io.Reader, w io.WriteCloser) (err error)`.
`pairs` is `NewPairReader(r)` and `output` is `NewPairWriter(w)` (both
constructors are outside `task.go`). The `switch` sets `input` and `m, ok`;
`%d` prints the phase number and `%s` the handler (`ToString` stands for the
formatting of the `fmt` package). A panic inside `t.run` passes through. -/
def Task.Run {η κ ν : Type} [DecidableEq κ] [ToString η] (t : Task η κ ν) (phase : Phase)
    (pairs : Reader κ ν) (output : Writer κ ν) (fuel : Nat) : Option (RunResult κ ν) :=
  let sel : Option (Reader κ ν × Option (Method η κ ν)) :=
    match phase.val with
    | 0 => some (pairs, t.mapper)
    | 1 => some (NewGroupedReader fuel pairs, t.combiner)
    | 2 => some (NewGroupedReader fuel pairs, t.reducer)
    | _ => none
  match sel with
  | none =>
    some { err := some (Error.errorf ("Invalid phase " ++ toString phase.val)), trace := [] }
  | some (_, none) =>
    some { err := some (Error.errorf
             ("No phase " ++ toString phase.val ++ " for " ++ toString t.inst))
           trace := [] }
  | some (input, some m) => t.run m input output fuel

/-! ## Observations on traces and readers -/

/-- Is the event a call of `Next()` on the input? -/
def Event.isNext {κ ν : Type} : Event κ ν → Bool
  | Event.Next _ => true
  | _ => false

/-- Is the event an invocation of the handler capability? -/
def Event.isCall {κ ν : Type} : Event κ ν → Bool
  | Event.Call _ _ => true
  | _ => false

/-- Is the event an emission to the output sink? -/
def Event.isEmit {κ ν : Type} : Event κ ν → Bool
  | Event.Emit _ _ _ => true
  | _ => false

/-- Is the event a call of `Close()` on the output sink? -/
def Event.isClose {κ ν : Type} : Event κ ν → Bool
  | Event.Close _ => true
  | _ => false

/-- Is the event a call of `Next()` that returned a non-nil error? -/
def Event.isFail {κ ν : Type} : Event κ ν → Bool
  | Event.Next (NextResult.fail _ _ _) => true
  | _ => false

/-- The input behaviour "`Next()` succeeds with the pairs `items`, in order,
and then returns `last`". -/
def Reader.Yields {κ ν : Type} :
    List (κ × Value ν) → Reader κ ν → NextResult κ ν → Prop
  | [], rd, last => ∃ rd', rd.Next = some (last, rd')
  | kv :: rest, rd, last =>
    ∃ rd', rd.Next = some (NextResult.ok kv.1 kv.2, rd') ∧ Reader.Yields rest rd' last

/-- The results of `n` successive calls of `Next()`, in order (`none` when one
of the calls does not return). -/
def Reader.nexts {κ ν : Type} : Nat → Reader κ ν → Option (List (NextResult κ ν))
  | 0, _ => some []
  | n + 1, rd =>
    match rd.Next with
    | none => none
    | some (r, rd') =>
      match Reader.nexts n rd' with
      | none => none
      | some rs => some (r :: rs)

/-- The calls expected of the loop on the pairs `items`, emissions left out:
for each pair a `Next()` returning it, followed by the invocation of the
capability with it. -/
def expectedCalls {κ ν : Type} (items : List (κ × Value ν)) : List (Event κ ν) :=
  items.flatMap fun kv => [Event.Next (NextResult.ok kv.1 kv.2), Event.Call kv.1 kv.2]

/-- The maximal runs of adjacent equal keys of a list of pairs, in order: each
run is its key with its values in order. This is the grouping the spec
describes, written without reference to the reader. -/
def adjacentRuns {κ α : Type} [DecidableEq κ] : List (κ × α) → List (κ × List α)
  | [] => []
  | (k, v) :: rest =>
    match adjacentRuns rest with
    | [] => [(k, [v])]
    | (k', vs) :: gs =>
      if k = k' then (k, v :: vs) :: gs else (k, [v]) :: (k', vs) :: gs

/-- The result of `Next()` that delivers the group `g`. -/
def groupResult {κ ν : Type} (g : κ × List (Value ν)) : NextResult κ ν :=
  NextResult.ok g.1 (Value.chan g.2)

/-! ## Fixtures used to instantiate the theorems -/

/-- A handler method that takes any key and value, collects the pair it is
given and counts its invocations in the handler state. -/
def echoMethod : Method Nat String Nat :=
  { accepts := fun _ _ => true
    body := fun h k v => Action.collect k v (fun _ => Action.done (h + 1)) }

/-- A handler object that has the one capability `name`, bound to `m`. -/
def Task.only {η κ ν : Type} (h : η) (name : String) (m : Method η κ ν) : Task η κ ν :=
  { inst := h, value := fun n => if n = name then some m else none }

/-- A sink that accepts every pair and whose `Close` fails. -/
def failingCloseWriter : Writer String Nat :=
  { σ := Nat
    state := 0
    write := fun s _ _ => (none, s + 1)
    close := fun s => (some (Error.errorf "close failed"), s) }

/-- A sink that accepts every pair and closes without error. -/
def quietWriter : Writer String Nat :=
  { σ := Nat
    state := 0
    write := fun s _ _ => (none, s + 1)
    close := fun s => (none, s) }

/-- The rows of the test "should group adjacent keys". -/
def seenRows : List (String × Value Nat) :=
  [("seen", Value.base 12), ("seen", Value.base 82)]

/-- The non-adjacent repeat of the spec: keys a, b, a. -/
def abaRows : List (String × Value Nat) :=
  [("a", Value.base 1), ("b", Value.base 2), ("a", Value.base 3)]

/-- A source that delivers two pairs and then reports a fault. -/
def faultyReader : Reader String Nat :=
  { σ := Nat
    state := 0
    step := fun i =>
      if i < 2 then some (NextResult.ok "k" (Value.base i), i + 1)
      else some (NextResult.fail none none (Error.errorf "bad record"), i) }

/-! ## Phase resolution -/

/-- C8: `GetPhase` is an exact, case-sensitive string match: "map", "combine"
and "reduce" give `MapPhase`, `CombinePhase` and `ReducePhase` with a nil
error, the three phases are pairwise distinct, and the error is nil for no
other string (for instance not for "Map"). -/
theorem GetPhase_exact_match :
    GetPhase "map" = (MapPhase, none) ∧
    GetPhase "combine" = (CombinePhase, none) ∧
    GetPhase "reduce" = (ReducePhase, none) ∧
    MapPhase ≠ CombinePhase ∧ MapPhase ≠ ReducePhase ∧ CombinePhase ≠ ReducePhase ∧
    (∀ s : String, (GetPhase s).2 = none ↔ (s = "map" ∨ s = "combine" ∨ s = "reduce")) ∧
    (GetPhase "Map").2 ≠ none ∧ (GetPhase "MAP").2 ≠ none ∧ (GetPhase " map").2 ≠ none := by
  refine ⟨by decide, by decide, by decide, by decide, by decide, by decide, ?_,
    by decide, by decide, by decide⟩
  intro s
  unfold GetPhase
  split_ifs <;> simp_all

/-- C9: `GetPhase` returns an error exactly for the names other than "map",
"combine" and "reduce"; for the empty string the error is "Missing phase",
and for every other such string `s` it is "Unknown phase " followed by `s`. -/
theorem GetPhase_failure :
    (∀ s : String, (GetPhase s).2 ≠ none ↔ (s ≠ "map" ∧ s ≠ "combine" ∧ s ≠ "reduce")) ∧
    GetPhase "" = (0, some (Error.errorf "Missing phase")) ∧
    (∀ s : String, s ≠ "" → s ≠ "map" → s ≠ "combine" → s ≠ "reduce" →
      GetPhase s = (0, some (Error.errorf ("Unknown phase " ++ s)))) := by
  refine ⟨?_, by decide, ?_⟩
  · intro s
    unfold GetPhase
    split_ifs <;> simp_all
  · intro s h0 h1 h2 h3
    simp [GetPhase, h0, h1, h2, h3]

/-- An instance of C9 at the unknown name "shuffle". -/
theorem GetPhase_failure_witness :
    GetPhase "shuffle" = (0, some (Error.errorf "Unknown phase shuffle")) :=
  GetPhase_failure.2.2 "shuffle" (by decide) (by decide) (by decide) (by decide)



/-! ## The loop of `Task.run` -/

/-- Every event of one invocation's collector is an emission. -/
theorem exec_all_emit {η κ ν : Type} (a : Action η κ ν) (w : Writer κ ν) :
    ∀ ev ∈ (a.exec w).2.2, ev.isEmit = true := by
  induction a generalizing w with
  | done h => intro ev hev; simp [Action.exec] at hev
  | collect k v cont ih =>
    intro ev hev
    simp only [Action.exec, List.mem_cons] at hev
    rcases hev with rfl | hev
    · rfl
    · exact ih _ _ ev hev

/-- Emissions vanish from a trace when emissions are filtered out. -/
theorem filter_emits_nil {κ ν : Type} (l : List (Event κ ν))
    (h : ∀ ev ∈ l, ev.isEmit = true) : l.filter (fun ev => !ev.isEmit) = [] := by
  rw [List.filter_eq_nil_iff]
  intro ev hev
  simp [h ev hev]

/-- Emissions count for nothing under a predicate that is false on them. -/
theorem countP_emits_zero {κ ν : Type} (p : Event κ ν → Bool) (l : List (Event κ ν))
    (h : ∀ ev ∈ l, ev.isEmit = true) (hp : ∀ ev, ev.isEmit = true → p ev = false) :
    l.countP p = 0 := by
  rw [List.countP_eq_zero]
  intro ev hev
  simp [hp ev (h ev hev)]

/-- An emission is no call of `Close()`. -/
theorem isClose_of_isEmit {κ ν : Type} (ev : Event κ ν) (h : ev.isEmit = true) :
    ev.isClose = false := by
  cases ev <;> simp [Event.isEmit, Event.isClose] at h ⊢

/-- An emission is no call of `Next()`. -/
theorem isNext_of_isEmit {κ ν : Type} (ev : Event κ ν) (h : ev.isEmit = true) :
    ev.isNext = false := by
  cases ev <;> simp [Event.isEmit, Event.isNext] at h ⊢

/-- An emission is no invocation of the capability. -/
theorem isCall_of_isEmit {κ ν : Type} (ev : Event κ ν) (h : ev.isEmit = true) :
    ev.isCall = false := by
  cases ev <;> simp [Event.isEmit, Event.isCall] at h ⊢

/-- An emission is no failing `Next()`. -/
theorem isFail_of_isEmit {κ ν : Type} (ev : Event κ ν) (h : ev.isEmit = true) :
    ev.isFail = false := by
  cases ev <;> simp [Event.isEmit, Event.isFail] at h ⊢

/-- The loop on an input that succeeds with `items`, each accepted by
`m.Call`, and then returns a non-ok status `e`: with enough fuel it is left
without panic, with `err` nil for `io.EOF` and `e` otherwise, after the calls
`tr` followed by the failing `Next()`. -/
theorem loop_yields {η κ ν : Type} (m : Method η κ ν) (items : List (κ × Value ν))
    (kx : Option κ) (vx : Option (Value ν)) (e : Error) :
    ∀ (fuel : Nat) (h : η) (input : Reader κ ν) (output : Writer κ ν),
      Reader.Yields items input (NextResult.fail kx vx e) →
      (∀ kv ∈ items, m.accepts kv.1 kv.2 = true) → items.length < fuel →
      ∃ out tr,
        Task.loop m fuel h input output =
          some (if e = Error.EOF then none else some e, false, out,
                tr ++ [Event.Next (NextResult.fail kx vx e)]) ∧
        tr.filter (fun ev => !ev.isEmit) = expectedCalls items ∧
        tr.countP Event.isNext = items.length ∧
        tr.countP Event.isCall = items.length ∧
        tr.countP Event.isClose = 0 := by
  induction items with
  | nil =>
    intro fuel h input output hy _ hf
    obtain ⟨rd', hn⟩ := hy
    obtain ⟨f, rfl⟩ : ∃ f, fuel = f + 1 := ⟨fuel - 1, by simp at hf; omega⟩
    refine ⟨output, [], ?_, rfl, rfl, rfl, rfl⟩
    unfold Task.loop
    rw [hn]
    by_cases he : e = Error.EOF <;> simp [he]
  | cons kv rest ih =>
    intro fuel h input output hy ha hf
    obtain ⟨rd', hn, hrest⟩ := hy
    obtain ⟨f, rfl⟩ : ∃ f, fuel = f + 1 := ⟨fuel - 1, by simp at hf; omega⟩
    have hf' : rest.length < f := by simp at hf; omega
    have hacc : m.accepts kv.1 kv.2 = true := ha kv (List.mem_cons_self _ _)
    obtain ⟨out, tr, hl, h1, h2, h3, h4⟩ :=
      ih f ((m.body h kv.1 kv.2).exec output).1 rd' ((m.body h kv.1 kv.2).exec output).2.1
        hrest (fun p hp => ha p (List.mem_cons_of_mem _ hp)) hf'
    have hem := exec_all_emit (m.body h kv.1 kv.2) output
    refine ⟨out, Event.Next (NextResult.ok kv.1 kv.2) :: Event.Call kv.1 kv.2 ::
      (((m.body h kv.1 kv.2).exec output).2.2 ++ tr), ?_, ?_, ?_, ?_, ?_⟩
    · unfold Task.loop
      rw [hn]
      simp only [hacc, if_true, hl]
      simp
    · simp only [List.filter_cons, List.filter_append, filter_emits_nil _ hem, h1]
      rfl
    · simp [List.countP_cons, Event.isNext, h2,
        countP_emits_zero Event.isNext _ hem isNext_of_isEmit]
    · simp [List.countP_cons, Event.isCall, h3,
        countP_emits_zero Event.isCall _ hem isCall_of_isEmit]
    · simp [List.countP_cons, Event.isClose, h4,
        countP_emits_zero Event.isClose _ hem isClose_of_isEmit]

/-- The loop ends, by return or by panic, on every input that reaches a
non-ok status, given enough fuel. -/
theorem loop_total {η κ ν : Type} (m : Method η κ ν) (items : List (κ × Value ν))
    (last : NextResult κ ν) (hlast : ∀ k v, last ≠ NextResult.ok k v) :
    ∀ (fuel : Nat) (h : η) (input : Reader κ ν) (output : Writer κ ν),
      Reader.Yields items input last → items.length < fuel →
      ∃ res, Task.loop m fuel h input output = some res := by
  induction items with
  | nil =>
    intro fuel h input output hy hf
    obtain ⟨rd', hn⟩ := hy
    obtain ⟨f, rfl⟩ : ∃ f, fuel = f + 1 := ⟨fuel - 1, by simp at hf; omega⟩
    unfold Task.loop
    rw [hn]
    cases last with
    | ok k v => exact absurd rfl (hlast k v)
    | fail k v e => by_cases he : e = Error.EOF <;> simp [he]
  | cons kv rest ih =>
    intro fuel h input output hy hf
    obtain ⟨rd', hn, hrest⟩ := hy
    obtain ⟨f, rfl⟩ : ∃ f, fuel = f + 1 := ⟨fuel - 1, by simp at hf; omega⟩
    have hf' : rest.length < f := by simp at hf; omega
    unfold Task.loop
    rw [hn]
    by_cases hacc : m.accepts kv.1 kv.2 = true
    · obtain ⟨res, hres⟩ :=
        ih f ((m.body h kv.1 kv.2).exec output).1 rd'
          ((m.body h kv.1 kv.2).exec output).2.1 hrest hf'
      simp only [hacc, if_true, hres]
      exact ⟨_, rfl⟩
    · simp only [hacc]
      exact ⟨_, rfl⟩

/-- The shape of every trace of the loop: no `Close()`; and either the loop
returned, the trace ends with the one failing `Next()` and `err` is nil for
`io.EOF` and the error otherwise, or `m.Call` panicked, no `Next()` failed
and `err` is nil. -/
theorem loop_shape {η κ ν : Type} (m : Method η κ ν) :
    ∀ (fuel : Nat) (h : η) (input : Reader κ ν) (output : Writer κ ν)
      (err : Option Error) (p : Bool) (out : Writer κ ν) (tr : List (Event κ ν)),
      Task.loop m fuel h input output = some (err, p, out, tr) →
      tr.countP Event.isClose = 0 ∧
      ((p = false ∧ ∃ tr0 kx vx e, tr = tr0 ++ [Event.Next (NextResult.fail kx vx e)] ∧
          err = (if e = Error.EOF then none else some e) ∧
          ∀ ev ∈ tr0, ev.isFail = false) ∨
       (p = true ∧ err = none ∧ ∀ ev ∈ tr, ev.isFail = false)) := by
  intro fuel
  induction fuel with
  | zero => intro h input output err p out tr hl; simp [Task.loop] at hl
  | succ f ih =>
    intro h input output err p out tr hl
    unfold Task.loop at hl
    split at hl
    · simp at hl
    · rename_i k v e _ _
      split_ifs at hl with he
      · simp only [Option.some.injEq, Prod.mk.injEq] at hl
        obtain ⟨rfl, rfl, rfl, rfl⟩ := hl
        exact ⟨rfl, Or.inl ⟨rfl, [], k, v, e, rfl, by simp [he], by simp⟩⟩
      · simp only [Option.some.injEq, Prod.mk.injEq] at hl
        obtain ⟨rfl, rfl, rfl, rfl⟩ := hl
        exact ⟨rfl, Or.inl ⟨rfl, [], k, v, e, rfl, by simp [he], by simp⟩⟩
    · rename_i k v input' _
      split_ifs at hl with hacc
      · simp only at hl
        split at hl
        · simp at hl
        · rename_i err' p' out' tr' heq
          simp only [Option.some.injEq, Prod.mk.injEq] at hl
          obtain ⟨rfl, rfl, rfl, rfl⟩ := hl
          obtain ⟨h0, hs⟩ := ih _ _ _ _ _ _ _ heq
          have hem := exec_all_emit (m.body h k v) output
          refine ⟨?_, ?_⟩
          · simp [List.countP_cons, Event.isClose, h0,
              countP_emits_zero Event.isClose _ hem isClose_of_isEmit]
          · rcases hs with ⟨hp, tr0, kx, vx, e, htr, herr, hnf⟩ | ⟨hp, herr, hnf⟩
            · refine Or.inl ⟨hp, Event.Next (NextResult.ok k v) :: Event.Call k v ::
                (((m.body h k v).exec output).2.2 ++ tr0), kx, vx, e, ?_, herr, ?_⟩
              · simp [htr]
              · intro ev hev
                simp only [List.mem_cons, List.mem_append] at hev
                rcases hev with rfl | rfl | hev | hev
                · rfl
                · rfl
                · exact isFail_of_isEmit ev (hem ev hev)
                · exact hnf ev hev
            · refine Or.inr ⟨hp, herr, ?_⟩
              intro ev hev
              simp only [List.mem_cons, List.mem_append] at hev
              rcases hev with rfl | rfl | hev | hev
              · rfl
              · rfl
              · exact isFail_of_isEmit ev (hem ev hev)
              · exact hnf ev hev
      · simp only [Option.some.injEq, Prod.mk.injEq] at hl
        obtain ⟨rfl, rfl, rfl, rfl⟩ := hl
        refine ⟨rfl, Or.inr ⟨rfl, rfl, ?_⟩⟩
        intro ev hev
        simp only [List.mem_singleton] at hev
        subst hev
        rfl


/-- The method `Task.run` on an input that succeeds with `items`, each
accepted by `m.Call`, and then returns the non-ok status `e`: with enough
fuel it returns; the error it reports is decided by `e` and by the result
`ec` of the one `Close()` call. -/
theorem run_yields {η κ ν : Type} (t : Task η κ ν) (m : Method η κ ν)
    (items : List (κ × Value ν)) (kx : Option κ) (vx : Option (Value ν)) (e : Error)
    (input : Reader κ ν) (output : Writer κ ν) (fuel : Nat)
    (hy : Reader.Yields items input (NextResult.fail kx vx e))
    (ha : ∀ kv ∈ items, m.accepts kv.1 kv.2 = true) (hf : items.length < fuel) :
    ∃ tr ec,
      t.run m input output fuel =
        some { err := if e = Error.EOF then ec else some e
               trace := tr ++ [Event.Next (NextResult.fail kx vx e), Event.Close ec] } ∧
      tr.filter (fun ev => !ev.isEmit) = expectedCalls items ∧
      tr.countP Event.isNext = items.length ∧
      tr.countP Event.isCall = items.length ∧
      tr.countP Event.isClose = 0 := by
  obtain ⟨out, tr, hl, h1, h2, h3, h4⟩ :=
    loop_yields m items kx vx e fuel t.inst input output hy ha hf
  refine ⟨tr, out.Close.1, ?_, h1, h2, h3, h4⟩
  unfold Task.run
  rw [hl]
  by_cases he : e = Error.EOF
  · cases hc : out.Close.1 <;> simp [he, hc]
  · simp [he]

/-- The method `Task.run` ends, by return or by panic, on every input that
reaches a non-ok status, given enough fuel. -/
theorem run_total {η κ ν : Type} (t : Task η κ ν) (m : Method η κ ν)
    (items : List (κ × Value ν)) (kx : Option κ) (vx : Option (Value ν)) (e : Error)
    (input : Reader κ ν) (output : Writer κ ν) (fuel : Nat)
    (hy : Reader.Yields items input (NextResult.fail kx vx e)) (hf : items.length < fuel) :
    ∃ r, t.run m input output fuel = some r := by
  obtain ⟨res, hres⟩ :=
    loop_total m items (NextResult.fail kx vx e) (by intro k v hc; cases hc) fuel t.inst
      input output hy hf
  obtain ⟨err, p, out, tr⟩ := res
  unfold Task.run
  rw [hres]
  exact ⟨_, rfl⟩

/-- Whenever a `Next()` call of a run reports an error, the run did not
panic, that call is its last before the one `Close()`, and the reported
error is the result `ec` of `Close()` for `io.EOF` and the read error
otherwise. -/
theorem run_fail_shape {η κ ν : Type} (t : Task η κ ν) (m : Method η κ ν)
    (input : Reader κ ν) (output : Writer κ ν) (fuel : Nat) (r : RunResult κ ν)
    (kx : Option κ) (vx : Option (Value ν)) (e : Error)
    (hr : t.run m input output fuel = some r)
    (hmem : Event.Next (NextResult.fail kx vx e) ∈ r.trace) :
    r.panicked = false ∧
    ∃ tr ec, r.trace = tr ++ [Event.Next (NextResult.fail kx vx e), Event.Close ec] ∧
      r.err = if e = Error.EOF then ec else some e := by
  unfold Task.run at hr
  split at hr
  · simp at hr
  · rename_i err p out tr heq
    simp only [Option.some.injEq] at hr
    subst hr
    simp only [List.mem_append, List.mem_singleton] at hmem
    have hmem' : Event.Next (NextResult.fail kx vx e) ∈ tr := by
      rcases hmem with hm | hm
      · exact hm
      · cases hm
    rcases (loop_shape m fuel t.inst input output _ _ _ _ heq).2 with
      ⟨hp, tr0, kx0, vx0, e0, htr, herr, hnf⟩ | ⟨hp, herr, hnf⟩
    · subst htr
      simp only [List.mem_append, List.mem_singleton] at hmem'
      rcases hmem' with hm | hm
      · have := hnf _ hm
        simp [Event.isFail] at this
      · injection hm with hm
        injection hm with h1 h2 h3
        subst h1 h2 h3
        refine ⟨hp, tr0, out.Close.1, by simp, ?_⟩
        subst herr
        by_cases he : e = Error.EOF
        · cases hc : out.Close.1 <;> simp [he, hc]
        · simp [he]
    · have := hnf _ hmem'
      simp [Event.isFail] at this

/-! ## The dispatcher -/

/-- The method `Task.Run` with a phase value outside the three constants. -/
theorem Run_invalid {η κ ν : Type} [DecidableEq κ] [ToString η] (t : Task η κ ν)
    (phase : Phase) (pairs : Reader κ ν) (output : Writer κ ν) (fuel : Nat)
    (h0 : phase ≠ MapPhase) (h1 : phase ≠ CombinePhase) (h2 : phase ≠ ReducePhase) :
    Task.Run t phase pairs output fuel =
      some { err := some (Error.errorf ("Invalid phase " ++ toString phase.val)), trace := [] } := by
  obtain ⟨n, hn⟩ := phase
  match n, hn with
  | 0, _ => exact absurd rfl h0
  | 1, _ => exact absurd rfl h1
  | 2, _ => exact absurd rfl h2
  | n + 3, _ => rfl

/-- C10: every name other than "map", "combine" and "reduce" makes `GetPhase`
return an error, and for every phase value other than `MapPhase`,
`CombinePhase` and `ReducePhase`, `Task.Run` returns the error "Invalid phase"
followed by the phase number with an empty trace: no `Next()`, no capability
invocation, no emission and no `Close()`. -/
theorem Run_unknown_phase {η κ ν : Type} [DecidableEq κ] [ToString η] :
    (∀ name : String, name ≠ "map" → name ≠ "combine" → name ≠ "reduce" →
      ∃ e, (GetPhase name).2 = some e) ∧
    (∀ (t : Task η κ ν) (phase : Phase) (pairs : Reader κ ν) (output : Writer κ ν)
        (fuel : Nat),
      phase ≠ MapPhase → phase ≠ CombinePhase → phase ≠ ReducePhase →
      Task.Run t phase pairs output fuel =
        some { err := some (Error.errorf ("Invalid phase " ++ toString phase.val))
               trace := [] }) := by
  refine ⟨?_, ?_⟩
  · intro name h1 h2 h3
    unfold GetPhase
    split_ifs <;> simp
  · intro t phase pairs output fuel h0 h1 h2
    exact Run_invalid t phase pairs output fuel h0 h1 h2

/-- An instance of C10: the name "sort" is rejected, and a run with phase 7
reports "Invalid phase 7" having called nothing. -/
theorem Run_unknown_phase_witness :
    (∃ e, (GetPhase "sort").2 = some e) ∧
    Task.Run (Task.only 0 "Map" echoMethod) (7 : Phase) (NewTestReader seenRows).toReader
        failingCloseWriter 5 =
      some { err := some (Error.errorf "Invalid phase 7"), trace := [] } :=
  ⟨(@Run_unknown_phase Nat String Nat _ _).1 "sort" (by decide) (by decide) (by decide),
   (@Run_unknown_phase Nat String Nat _ _).2 (Task.only 0 "Map" echoMethod) (7 : Phase)
     (NewTestReader seenRows).toReader failingCloseWriter 5
     (by decide) (by decide) (by decide)⟩

/-- C6: when the handler lacks the capability the active phase requires
("Map" for `MapPhase`, "Combine" for `CombinePhase`, "Reduce" for
`ReducePhase`), `Task.Run` returns the error "No phase", the phase number,
" for " and the handler, with an empty trace: no `Next()` on the input and no
emission to the output sink. -/
theorem Run_missing_capability {η κ ν : Type} [DecidableEq κ] [ToString η]
    (t : Task η κ ν) (phase : Phase) (pairs : Reader κ ν) (output : Writer κ ν) (fuel : Nat)
    (h : (phase = MapPhase ∧ t.value "Map" = none) ∨
         (phase = CombinePhase ∧ t.value "Combine" = none) ∨
         (phase = ReducePhase ∧ t.value "Reduce" = none)) :
    Task.Run t phase pairs output fuel =
      some { err := some (Error.errorf
               ("No phase " ++ toString phase.val ++ " for " ++ toString t.inst))
             trace := [] } := by
  rcases h with ⟨hp, hm⟩ | ⟨hp, hm⟩ | ⟨hp, hm⟩ <;> subst hp <;>
    simp [Task.Run, Task.mapper, Task.combiner, Task.reducer, Task.methodByName, hm,
      MapPhase, CombinePhase, ReducePhase]

/-- An instance of C6: a handler with only "Map", run in the reduce phase. -/
theorem Run_missing_capability_witness :
    Task.Run (Task.only 41 "Map" echoMethod) ReducePhase (NewTestReader seenRows).toReader
        quietWriter 5 =
      some { err := some (Error.errorf "No phase 2 for 41"), trace := [] } :=
  Run_missing_capability (Task.only 41 "Map" echoMethod) ReducePhase
    (NewTestReader seenRows).toReader quietWriter 5 (Or.inr (Or.inr ⟨rfl, rfl⟩))

/-- C7: `Task.Run` selects input and capability by phase. In `MapPhase` it
runs the method named "Map" on the raw pair source; in `CombinePhase` the
method named "Combine" on the pair source wrapped in a grouped reader; in
`ReducePhase` the method named "Reduce" on the pair source wrapped in a
grouped reader. Only the method of the active phase is looked at: a handler
that has that one method alone is accepted. -/
theorem Run_selects_by_phase {η κ ν : Type} [DecidableEq κ] [ToString η]
    (pairs : Reader κ ν) (output : Writer κ ν) (fuel : Nat) :
    (∀ (t : Task η κ ν) (m : Method η κ ν), t.value "Map" = some m →
      Task.Run t MapPhase pairs output fuel = t.run m pairs output fuel) ∧
    (∀ (t : Task η κ ν) (m : Method η κ ν), t.value "Combine" = some m →
      Task.Run t CombinePhase pairs output fuel =
        t.run m (NewGroupedReader fuel pairs) output fuel) ∧
    (∀ (t : Task η κ ν) (m : Method η κ ν), t.value "Reduce" = some m →
      Task.Run t ReducePhase pairs output fuel =
        t.run m (NewGroupedReader fuel pairs) output fuel) ∧
    (∀ (h : η) (m : Method η κ ν),
      Task.Run (Task.only h "Map" m) MapPhase pairs output fuel =
        (Task.only h "Map" m).run m pairs output fuel ∧
      Task.Run (Task.only h "Combine" m) CombinePhase pairs output fuel =
        (Task.only h "Combine" m).run m (NewGroupedReader fuel pairs) output fuel ∧
      Task.Run (Task.only h "Reduce" m) ReducePhase pairs output fuel =
        (Task.only h "Reduce" m).run m (NewGroupedReader fuel pairs) output fuel) := by
  refine ⟨?_, ?_, ?_, ?_⟩
  · intro t m hm
    simp [Task.Run, Task.mapper, Task.methodByName, hm, MapPhase]
  · intro t m hm
    simp [Task.Run, Task.combiner, Task.methodByName, hm, CombinePhase]
  · intro t m hm
    simp [Task.Run, Task.reducer, Task.methodByName, hm, ReducePhase]
  · intro h m
    refine ⟨?_, ?_, ?_⟩ <;>
      simp [Task.Run, Task.mapper, Task.combiner, Task.reducer, Task.methodByName,
        Task.only, MapPhase, CombinePhase, ReducePhase]

/-- An instance of C7: a handler with only "Reduce", run in the reduce phase
over the rows of the test, is invoked once with the whole group. -/
theorem Run_selects_by_phase_witness :
    Task.Run (Task.only 0 "Reduce" echoMethod) ReducePhase (NewTestReader seenRows).toReader
        quietWriter 5 =
      some { err := none
             trace := [Event.Next (NextResult.ok "seen"
                         (Value.chan [Value.base 12, Value.base 82])),
                       Event.Call "seen" (Value.chan [Value.base 12, Value.base 82]),
                       Event.Emit "seen" (Value.chan [Value.base 12, Value.base 82]) none,
                       Event.Next (NextResult.fail none none Error.EOF),
                       Event.Close none] } :=
  ((@Run_selects_by_phase Nat String Nat _ _ (NewTestReader seenRows).toReader
      quietWriter 5).2.2.1 (Task.only 0 "Reduce" echoMethod) echoMethod rfl).trans rfl

/-- C3: when the input's `Next()` reports an error `e` other than `io.EOF`,
the loop stops there and `Task.run` returns exactly `e`, whatever the one
`Close()` call on the output returned (`ec`): a close failure never replaces
the read error. On an input that succeeds with `items` and then reports `e`,
given fuel: (1) the run ends; (2) when `m.Call` accepts each of `items`, it
ends by returning `e`, after the failing `Next()` and one `Close()`. And (3),
for every input and fuel, a run in which some `Next()` reported `e` did not
panic, returned `e`, and made that `Next()` its last call before `Close()`. -/
theorem run_read_fault {η κ ν : Type} (t : Task η κ ν) (m : Method η κ ν)
    (items : List (κ × Value ν)) (kx : Option κ) (vx : Option (Value ν)) (e : Error)
    (input : Reader κ ν) (output : Writer κ ν) (fuel : Nat)
    (hy : Reader.Yields items input (NextResult.fail kx vx e)) (he : e ≠ Error.EOF)
    (hf : items.length < fuel) :
    (∃ r, t.run m input output fuel = some r) ∧
    ((∀ kv ∈ items, m.accepts kv.1 kv.2 = true) →
      ∃ tr ec,
        t.run m input output fuel =
          some { err := some e
                 trace := tr ++ [Event.Next (NextResult.fail kx vx e), Event.Close ec] } ∧
        tr.countP Event.isNext = items.length ∧
        tr.countP Event.isClose = 0) ∧
    (∀ (input' : Reader κ ν) (fuel' : Nat) (r : RunResult κ ν),
      t.run m input' output fuel' = some r →
      Event.Next (NextResult.fail kx vx e) ∈ r.trace →
      r.panicked = false ∧ r.err = some e ∧
      ∃ tr ec, r.trace = tr ++ [Event.Next (NextResult.fail kx vx e), Event.Close ec]) := by
  refine ⟨run_total t m items kx vx e input output fuel hy hf, ?_, ?_⟩
  · intro ha
    obtain ⟨tr, ec, hr, _, h2, _, h4⟩ :=
      run_yields t m items kx vx e input output fuel hy ha hf
    refine ⟨tr, ec, ?_, h2, h4⟩
    rw [hr]
    simp [he]
  · intro input' fuel' r hr hmem
    obtain ⟨hp, tr, ec, htr, herr⟩ := run_fail_shape t m input' output fuel' r kx vx e hr hmem
    refine ⟨hp, ?_, tr, ec, htr⟩
    rw [herr]
    simp [he]

/-- An instance of C3: the source fails with "bad record" after two pairs and
the sink's `Close` fails with "close failed"; the run reports "bad record". -/
theorem run_read_fault_witness :
    (∃ tr ec,
      (Task.only 0 "Map" echoMethod).run echoMethod faultyReader failingCloseWriter 3 =
        some { err := some (Error.errorf "bad record")
               trace := tr ++ [Event.Next (NextResult.fail none none
                          (Error.errorf "bad record")), Event.Close ec] } ∧
      tr.countP Event.isNext = 2 ∧ tr.countP Event.isClose = 0) ∧
    (Task.only 0 "Map" echoMethod).run echoMethod faultyReader failingCloseWriter 3 =
      some { err := some (Error.errorf "bad record")
             trace := [Event.Next (NextResult.ok "k" (Value.base 0)),
                       Event.Call "k" (Value.base 0),
                       Event.Emit "k" (Value.base 0) none,
                       Event.Next (NextResult.ok "k" (Value.base 1)),
                       Event.Call "k" (Value.base 1),
                       Event.Emit "k" (Value.base 1) none,
                       Event.Next (NextResult.fail none none (Error.errorf "bad record")),
                       Event.Close (some (Error.errorf "close failed"))] } :=
  ⟨(run_read_fault (Task.only 0 "Map" echoMethod) echoMethod
      [("k", Value.base 0), ("k", Value.base 1)] none none (Error.errorf "bad record")
      faultyReader failingCloseWriter 3 ⟨_, rfl, _, rfl, _, rfl⟩
      (by decide) (by decide)).2.1 (fun _ _ => rfl),
   rfl⟩

/-- C4: when the input's `Next()` reports `io.EOF`, the loop stops without
error and `Task.run` returns exactly what the one `Close()` call on the
output returned (`ec`): nil when `Close` succeeds, the close error when it
fails. On an input that succeeds with `items` and then reports `io.EOF`,
given fuel: (1) the run ends; (2) when `m.Call` accepts each of `items`, it
ends by returning `ec`, after the failing `Next()` and that `Close()`. And
(3), for every input and fuel, a run in which some `Next()` reported `io.EOF`
did not panic, returned `ec`, and made that `Next()` its last call before
`Close()`. -/
theorem run_eof {η κ ν : Type} (t : Task η κ ν) (m : Method η κ ν)
    (items : List (κ × Value ν)) (kx : Option κ) (vx : Option (Value ν))
    (input : Reader κ ν) (output : Writer κ ν) (fuel : Nat)
    (hy : Reader.Yields items input (NextResult.fail kx vx Error.EOF))
    (hf : items.length < fuel) :
    (∃ r, t.run m input output fuel = some r) ∧
    ((∀ kv ∈ items, m.accepts kv.1 kv.2 = true) →
      ∃ tr ec,
        t.run m input output fuel =
          some { err := ec
                 trace := tr ++ [Event.Next (NextResult.fail kx vx Error.EOF),
                                 Event.Close ec] } ∧
        tr.countP Event.isNext = items.length ∧
        tr.countP Event.isClose = 0) ∧
    (∀ (input' : Reader κ ν) (fuel' : Nat) (r : RunResult κ ν),
      t.run m input' output fuel' = some r →
      Event.Next (NextResult.fail kx vx Error.EOF) ∈ r.trace →
      r.panicked = false ∧
      ∃ tr ec, r.trace = tr ++ [Event.Next (NextResult.fail kx vx Error.EOF),
                                Event.Close ec] ∧ r.err = ec) := by
  refine ⟨run_total t m items kx vx Error.EOF input output fuel hy hf, ?_, ?_⟩
  · intro ha
    obtain ⟨tr, ec, hr, _, h2, _, h4⟩ :=
      run_yields t m items kx vx Error.EOF input output fuel hy ha hf
    refine ⟨tr, ec, ?_, h2, h4⟩
    rw [hr]
    simp
  · intro input' fuel' r hr hmem
    obtain ⟨hp, tr, ec, htr, herr⟩ :=
      run_fail_shape t m input' output fuel' r kx vx Error.EOF hr hmem
    refine ⟨hp, tr, ec, htr, ?_⟩
    rw [herr]
    simp

/-- An instance of C4: the rows of the test are read to the end and the
sink's `Close` fails; the run reports the close error. -/
theorem run_eof_witness :
    (∃ tr ec,
      (Task.only 0 "Map" echoMethod).run echoMethod (NewTestReader seenRows).toReader
          failingCloseWriter 3 =
        some { err := ec
               trace := tr ++ [Event.Next (NextResult.fail none none Error.EOF),
                               Event.Close ec] } ∧
      tr.countP Event.isNext = 2 ∧ tr.countP Event.isClose = 0) ∧
    ((Task.only 0 "Map" echoMethod).run echoMethod (NewTestReader seenRows).toReader
        failingCloseWriter 3).map RunResult.err =
      some (some (Error.errorf "close failed")) ∧
    ((Task.only 0 "Map" echoMethod).run echoMethod (NewTestReader seenRows).toReader
        quietWriter 3).map RunResult.err = some none :=
  ⟨(run_eof (Task.only 0 "Map" echoMethod) echoMethod seenRows none none
      (NewTestReader seenRows).toReader failingCloseWriter 3 ⟨_, rfl, _, rfl, _, rfl⟩
      (by decide)).2.1 (fun _ _ => rfl),
   rfl, rfl⟩

/-- The first run: the head pair with the values of the following pairs that
have its key; the other runs are those of what follows them. -/
theorem adjacentRuns_cons {κ α : Type} [DecidableEq κ] (rest : List (κ × α)) :
    ∀ (k : κ) (v : α),
      adjacentRuns ((k, v) :: rest) =
        (k, v :: (rest.takeWhile (fun p => decide (p.1 = k))).map Prod.snd) ::
          adjacentRuns (rest.dropWhile (fun p => decide (p.1 = k))) := by
  induction rest with
  | nil => intro k v; simp [adjacentRuns]
  | cons p rest ih =>
    intro k v
    obtain ⟨k', v'⟩ := p
    rw [adjacentRuns, ih k' v']
    by_cases hk : k = k'
    · subst hk
      simp [List.takeWhile_cons, List.dropWhile_cons]
    · have hk' : ¬ k' = k := fun h => hk h.symm
      simp [List.takeWhile_cons, List.dropWhile_cons, hk, hk', ih k' v']

/-- The runs, laid out again as pairs, are the list they were cut from. -/
theorem adjacentRuns_flatten {κ α : Type} [DecidableEq κ] (l : List (κ × α)) :
    (adjacentRuns l).flatMap (fun g => g.2.map (fun v => (g.1, v))) = l := by
  induction l with
  | nil => rfl
  | cons p rest ih =>
    obtain ⟨k, v⟩ := p
    rw [adjacentRuns]
    cases hr : adjacentRuns rest with
    | nil =>
      rw [hr] at ih
      simp at ih
      simp [← ih]
    | cons g gs =>
      obtain ⟨k', vs⟩ := g
      rw [hr] at ih
      by_cases hk : k = k'
      · subst hk
        simp only [if_true]
        rw [← ih]
        simp [List.flatMap_cons]
      · simp only [hk, if_false]
        rw [← ih]
        simp [List.flatMap_cons]

/-- No run is empty. -/
theorem adjacentRuns_nonempty {κ α : Type} [DecidableEq κ] (l : List (κ × α)) :
    ∀ g ∈ adjacentRuns l, g.2 ≠ [] := by
  induction l with
  | nil => intro g hg; simp [adjacentRuns] at hg
  | cons p rest ih =>
    obtain ⟨k, v⟩ := p
    rw [adjacentRuns]
    cases hr : adjacentRuns rest with
    | nil => intro g hg; simp at hg; subst hg; simp
    | cons g' gs =>
      obtain ⟨k', vs⟩ := g'
      rw [hr] at ih
      by_cases hk : k = k'
      · subst hk
        intro g hg
        simp only [if_true, List.mem_cons] at hg
        rcases hg with rfl | hg
        · simp
        · exact ih g (List.mem_cons_of_mem _ hg)
      · intro g hg
        simp only [hk, if_false, List.mem_cons] at hg
        rcases hg with rfl | rfl | hg
        · simp
        · exact ih _ (List.mem_cons_self _ _)
        · exact ih g (List.mem_cons_of_mem _ hg)

/-- Neighbouring runs have different keys: the runs are maximal. -/
theorem adjacentRuns_chain {κ α : Type} [DecidableEq κ] (l : List (κ × α)) :
    List.Chain' (fun a b => a.1 ≠ b.1) (adjacentRuns l) := by
  induction l with
  | nil => simp [adjacentRuns]
  | cons p rest ih =>
    obtain ⟨k, v⟩ := p
    rw [adjacentRuns]
    cases hr : adjacentRuns rest with
    | nil => simp
    | cons g' gs =>
      obtain ⟨k', vs⟩ := g'
      rw [hr] at ih
      by_cases hk : k = k'
      · subst hk
        simp only [if_true]
        cases gs with
        | nil => simp
        | cons g2 gs2 =>
          rw [List.chain'_cons] at ih ⊢
          exact ih
      · simp only [hk, if_false]
        rw [List.chain'_cons]
        exact ⟨hk, ih⟩

/-! ## The grouped reader over the test source -/

/-- The method `TestReader.Next` past the last row: `io.EOF`, nil key and value, and the
reader does not move. -/
theorem TestReader_Next_nil {κ ν : Type} (tr : TestReader κ ν)
    (h : tr.rows.drop tr.i = []) :
    tr.Next = (NextResult.fail none none Error.EOF, tr) := by
  have hlen : tr.rows.length ≤ tr.i := List.drop_eq_nil_iff.mp h
  unfold TestReader.Next
  rw [dif_pos (by omega)]

/-- The method `TestReader.Next` before the last row: the row at the index, and the
index moves on by one. -/
theorem TestReader_Next_cons {κ ν : Type} (tr : TestReader κ ν) (p : κ × Value ν)
    (rest : List (κ × Value ν)) (h : tr.rows.drop tr.i = p :: rest) :
    tr.Next = (NextResult.ok p.1 p.2, { tr with i := tr.i + 1 }) ∧
      tr.rows.drop (tr.i + 1) = rest := by
  have hlt : tr.i < tr.rows.length := by
    by_contra hc
    have : tr.rows.drop tr.i = [] := List.drop_eq_nil_iff.mpr (by omega)
    rw [this] at h
    cases h
  rw [List.drop_eq_getElem_cons hlt] at h
  injection h with h1 h2
  refine ⟨?_, h2⟩
  unfold TestReader.Next
  rw [dif_neg (by omega)]
  simp only [List.get_eq_getElem]
  rw [h1]

/-- The producer of one group over the test source: it pushes the values of
the rows that follow with the group's key and leaves the remaining rows in
the lookahead slot and the source. -/
theorem produce_TestReader {κ ν : Type} [DecidableEq κ] (rows : List (κ × Value ν))
    (key : κ) :
    ∀ (fuel i : Nat), (rows.drop i).length < fuel →
      ∃ g : GroupedReader (TestReader κ ν) κ ν,
        GroupedReader.produce (fun s => some (TestReader.Next s)) key fuel
            { i := i, rows := rows } =
          some (((rows.drop i).takeWhile (fun p => decide (p.1 = key))).map Prod.snd, g) ∧
        g.reader.rows = rows ∧ g.fault = none ∧
        g.lookahead.toList ++ rows.drop g.reader.i =
          (rows.drop i).dropWhile (fun p => decide (p.1 = key)) := by
  intro fuel
  induction fuel with
  | zero => intro i h; omega
  | succ f ih =>
    intro i hf
    cases hd : rows.drop i with
    | nil =>
      refine ⟨⟨⟨i, rows⟩, none, none⟩, ?_, rfl, rfl, ?_⟩
      · unfold GroupedReader.produce
        simp only [TestReader_Next_nil (⟨i, rows⟩ : TestReader κ ν) hd]
        simp
      · simp [hd]
    | cons p rest =>
      obtain ⟨hn, hrest⟩ := TestReader_Next_cons (⟨i, rows⟩ : TestReader κ ν) p rest hd
      simp only at hn hrest
      by_cases hk : p.1 = key
      · have hf' : (rows.drop (i + 1)).length < f := by
          rw [hrest]; rw [hd] at hf; simp at hf; omega
        obtain ⟨g, hg, h1, h2, h3⟩ := ih (i + 1) hf'
        refine ⟨g, ?_, h1, h2, ?_⟩
        · unfold GroupedReader.produce
          simp only [hn, hk, if_true, hg]
          simp [List.takeWhile_cons, hk, hrest]
        · rw [h3, hrest]
          simp [List.dropWhile_cons, hk]
      · refine ⟨⟨⟨i + 1, rows⟩, some (p.1, p.2), none⟩, ?_, rfl, rfl, ?_⟩
        · unfold GroupedReader.produce
          simp only [hn, hk, if_false]
          simp [List.takeWhile_cons, hk]
        · simp [List.dropWhile_cons, hk, hrest]

/-- A call of `Next()` on a grouped reader over the test source with nothing left:
`io.EOF` with nil key and nil values, and the reader stays as it is. -/
theorem GroupedReader_Next_nil {κ ν : Type} [DecidableEq κ] (fuel : Nat)
    (g : GroupedReader (TestReader κ ν) κ ν) (hf : g.fault = none)
    (hrem : g.lookahead.toList ++ g.reader.rows.drop g.reader.i = []) :
    GroupedReader.Next (fun s => some (TestReader.Next s)) fuel g =
      some (NextResult.fail none none Error.EOF, g) := by
  obtain ⟨rd, la, fl⟩ := g
  simp only at hf hrem
  subst hf
  obtain ⟨hla, hd⟩ := List.append_eq_nil.mp hrem
  cases la with
  | some q => simp at hla
  | none =>
    unfold GroupedReader.Next
    simp [TestReader_Next_nil rd hd]

/-- A call of `Next()` on a grouped reader over the test source with the pairs
`p :: rest` left: the group of `p`, that is its key with its value and the
values of the pairs of `rest` that follow with the same key; the pairs after
them are left. -/
theorem GroupedReader_Next_cons {κ ν : Type} [DecidableEq κ] (rows : List (κ × Value ν))
    (fuel : Nat) (g : GroupedReader (TestReader κ ν) κ ν) (p : κ × Value ν)
    (rest : List (κ × Value ν)) (hr : g.reader.rows = rows) (hf : g.fault = none)
    (hrem : g.lookahead.toList ++ rows.drop g.reader.i = p :: rest)
    (hfuel : rest.length < fuel) :
    ∃ g' : GroupedReader (TestReader κ ν) κ ν,
      GroupedReader.Next (fun s => some (TestReader.Next s)) fuel g =
        some (NextResult.ok p.1 (Value.chan
          (p.2 :: (rest.takeWhile (fun q => decide (q.1 = p.1))).map Prod.snd)), g') ∧
      g'.reader.rows = rows ∧ g'.fault = none ∧
      g'.lookahead.toList ++ rows.drop g'.reader.i =
        rest.dropWhile (fun q => decide (q.1 = p.1)) := by
  obtain ⟨⟨i, rows'⟩, la, fl⟩ := g
  simp only at hr hf hrem
  subst hr hf
  cases la with
  | none =>
    simp only [Option.toList, List.nil_append] at hrem
    obtain ⟨hn, hrest⟩ := TestReader_Next_cons (⟨i, rows'⟩ : TestReader κ ν) p rest hrem
    simp only at hn hrest
    obtain ⟨g', hg, h1, h2, h3⟩ :=
      produce_TestReader rows' p.1 fuel (i + 1) (by rw [hrest]; exact hfuel)
    refine ⟨g', ?_, h1, h2, ?_⟩
    · unfold GroupedReader.Next
      simp only [hn, hg, hrest]
    · rw [h3, hrest]
  | some q =>
    simp only [Option.toList, List.singleton_append, List.cons.injEq] at hrem
    obtain ⟨hq, hrest⟩ := hrem
    subst hq
    obtain ⟨g', hg, h1, h2, h3⟩ :=
      produce_TestReader rows' q.1 fuel i (by rw [hrest]; exact hfuel)
    refine ⟨g', ?_, h1, h2, ?_⟩
    · unfold GroupedReader.Next
      simp only [hg, hrest]
    · rw [h3, hrest]

/-- Once nothing is left, every further `Next()` returns `io.EOF` with nil key
and nil values. -/
theorem nexts_grouped_nil {κ ν : Type} [DecidableEq κ] (fuel : Nat)
    (g : GroupedReader (TestReader κ ν) κ ν) (hf : g.fault = none)
    (hrem : g.lookahead.toList ++ g.reader.rows.drop g.reader.i = []) :
    ∀ extra : Nat,
      Reader.nexts extra
          (Reader.mk (GroupedReader (TestReader κ ν) κ ν) g
            (GroupedReader.Next (fun s => some (TestReader.Next s)) fuel)) =
        some (List.replicate extra (NextResult.fail none none Error.EOF)) := by
  intro extra
  induction extra with
  | zero => rfl
  | succ n ih =>
    unfold Reader.nexts
    simp only [Reader.Next, GroupedReader_Next_nil fuel g hf hrem, ih, List.replicate_succ]

/-- Successive `Next()` calls on a grouped reader over the test source with
the pairs `rem` left deliver the maximal runs of `rem`, then `io.EOF`. -/
theorem nexts_grouped {κ ν : Type} [DecidableEq κ] (rows : List (κ × Value ν))
    (fuel extra : Nat) :
    ∀ (n : Nat) (rem : List (κ × Value ν)) (g : GroupedReader (TestReader κ ν) κ ν),
      rem.length ≤ n → g.reader.rows = rows → g.fault = none →
      g.lookahead.toList ++ rows.drop g.reader.i = rem → rem.length ≤ fuel →
      Reader.nexts ((adjacentRuns rem).length + extra)
          (Reader.mk (GroupedReader (TestReader κ ν) κ ν) g
            (GroupedReader.Next (fun s => some (TestReader.Next s)) fuel)) =
        some ((adjacentRuns rem).map groupResult ++
          List.replicate extra (NextResult.fail none none Error.EOF)) := by
  intro n
  induction n with
  | zero =>
    intro rem g hn hr hf hrem _
    have : rem = [] := List.length_eq_zero.mp (by omega)
    subst this
    subst hr
    simpa [adjacentRuns] using nexts_grouped_nil fuel g hf hrem extra
  | succ n ih =>
    intro rem g hn hr hf hrem hfuel
    cases rem with
    | nil =>
      subst hr
      simpa [adjacentRuns] using nexts_grouped_nil fuel g hf hrem extra
    | cons p rest =>
      obtain ⟨g', hg, h1, h2, h3⟩ :=
        GroupedReader_Next_cons rows fuel g p rest hr hf hrem
          (by simp at hfuel; omega)
      have hlen : (rest.dropWhile (fun q => decide (q.1 = p.1))).length ≤ rest.length :=
        (List.dropWhile_sublist _).length_le
      have hih := ih _ g' (by simp at hn; omega) h1 h2 h3 (by simp at hfuel; omega)
      obtain ⟨k, v⟩ := p
      rw [adjacentRuns_cons rest k v]
      simp only [List.length_cons, List.map_cons, List.cons_append]
      rw [Nat.add_right_comm]
      unfold Reader.nexts
      simp only [Reader.Next, hg, hih]
      rfl

/-- C1: over the finite pair source `NewTestReader rows`, successive `Next()`
calls on the grouped reader (each group's sequence drained before the next
call) return the maximal runs of adjacent equal keys of `rows`, in order,
each as its key with its values in order, and every call after the last
group (the first call, for no rows) returns `io.EOF` with nil key and nil
values. The runs are characterised by: laid out again they are `rows`; none
is empty; neighbouring runs differ in key (so a key that comes back later
starts a new group). -/
theorem GroupedReader_groups_adjacent {κ ν : Type} [DecidableEq κ]
    (rows : List (κ × Value ν)) (fuel extra : Nat) (hf : rows.length ≤ fuel) :
    Reader.nexts ((adjacentRuns rows).length + extra)
        (NewGroupedReader fuel (NewTestReader rows).toReader) =
      some ((adjacentRuns rows).map groupResult ++
        List.replicate extra (NextResult.fail none none Error.EOF)) ∧
    (adjacentRuns rows).flatMap (fun g => g.2.map (fun v => (g.1, v))) = rows ∧
    (∀ g ∈ adjacentRuns rows, g.2 ≠ []) ∧
    List.Chain' (fun a b => a.1 ≠ b.1) (adjacentRuns rows) := by
  refine ⟨?_, adjacentRuns_flatten rows, adjacentRuns_nonempty rows, adjacentRuns_chain rows⟩
  exact nexts_grouped rows fuel extra rows.length rows
    ⟨⟨0, rows⟩, none, none⟩ (Nat.le_refl _) rfl rfl (by simp) hf

/-- The instances of C1 named by the tests and the spec: the rows
("seen", 12), ("seen", 82) give the key "seen" with 12 then 82, then
`io.EOF`; the keys a, b, a give three groups; no rows give `io.EOF` at once. -/
theorem GroupedReader_groups_adjacent_witness :
    Reader.nexts 2 (NewGroupedReader 2 (NewTestReader seenRows).toReader) =
      some [NextResult.ok "seen" (Value.chan [Value.base 12, Value.base 82]),
            NextResult.fail none none Error.EOF] ∧
    Reader.nexts 4 (NewGroupedReader 3 (NewTestReader abaRows).toReader) =
      some [NextResult.ok "a" (Value.chan [Value.base 1]),
            NextResult.ok "b" (Value.chan [Value.base 2]),
            NextResult.ok "a" (Value.chan [Value.base 3]),
            NextResult.fail none none Error.EOF] ∧
    Reader.nexts 1 (NewGroupedReader 0 (NewTestReader ([] : List (String × Value Nat))).toReader) =
      some [NextResult.fail none none Error.EOF] :=
  ⟨(GroupedReader_groups_adjacent seenRows 2 1 (by decide)).1,
   (GroupedReader_groups_adjacent abaRows 3 1 (by decide)).1,
   (GroupedReader_groups_adjacent ([] : List (String × Value Nat)) 0 1 (by decide)).1⟩

end Gossamr
